import Mathlib

/-!
Verification of the Lagrange constant-term recovery in
`src/src/main/java/com/catalog/secretsharing/script.py`.

The script's one algorithmic function is `lagrange_constant_term(points)`,
which computes the value at `x = 0` of the interpolating polynomial through
the given points by accumulating `secret += yi * Li(0)` where
`Li(0) = prod over j != i of (0 - xj) / (xi - xj)`.

We embed the function shallowly over exact rationals (`ℚ`): the Python
`float` arithmetic is idealized as exact field arithmetic, which the spec
itself allows ("floating-point (or exact rational) arithmetic").  Python's
division raises `ZeroDivisionError` on a zero divisor; we model this with an
explicit `Except` value.  The function performs no input validation, so the
error type also carries an `invalidInputError` constructor only so that
spec-level statements about `InvalidInputError` can be expressed; the code
never produces it.
-/

namespace SecretSharing

/-- Errors a run of the embedded function can be asked about.
`zeroDivisionError` models Python's built-in `ZeroDivisionError`;
`invalidInputError` models the spec's `InvalidInputError` (which the source
code never raises, having no validation). -/
inductive PyErr
  | zeroDivisionError
  | invalidInputError
  deriving DecidableEq

/-- x-coordinate of `points[k]` (the script does `xi, yi = points[i]`). -/
def getX (points : List (ℚ × ℚ)) (k : ℕ) : ℚ := (points.getD k (0, 0)).1

/-- y-coordinate of `points[k]`. -/
def getY (points : List (ℚ × ℚ)) (k : ℕ) : ℚ := (points.getD k (0, 0)).2

/-- Inner loop of the script:
`for j in range(n): if i != j: li_0 *= (0 - xj) / (xi - xj)`,
processing the index list `js` with accumulator `acc`.  A zero divisor
(`xi - xj == 0`) raises `ZeroDivisionError`, as Python division does. -/
def liLoop (points : List (ℚ × ℚ)) (i : ℕ) : List ℕ → ℚ → Except PyErr ℚ
  | [], acc => .ok acc
  | j :: js, acc =>
    if i ≠ j then
      if getX points i - getX points j = 0 then .error .zeroDivisionError
      else liLoop points i js (acc * ((0 - getX points j) / (getX points i - getX points j)))
    else liLoop points i js acc

/-- Outer loop of the script:
`for i in range(n): ... secret += yi * li_0`,
processing the index list `is` with accumulator `secret`. -/
def outerLoop (points : List (ℚ × ℚ)) : List ℕ → ℚ → Except PyErr ℚ
  | [], secret => .ok secret
  | i :: is, secret =>
    match liLoop points i (List.range points.length) 1 with
    | .error e => .error e
    | .ok li => outerLoop points is (secret + getY points i * li)

/-- Shallow embedding of the script's `lagrange_constant_term(points)`:
`secret = 0.0; for i in range(n): li_0 = 1.0; for j in range(n): ...;
secret += yi * li_0; return secret`. -/
def lagrange_constant_term (points : List (ℚ × ℚ)) : Except PyErr ℚ :=
  outerLoop points (List.range points.length) 0

/-- The input-validity predicate of the spec: the x-values of the points are
pairwise distinct. -/
def DistinctX (points : List (ℚ × ℚ)) : Prop := (points.map Prod.fst).Nodup

instance (points : List (ℚ × ℚ)) : Decidable (DistinctX points) :=
  List.nodupDecidable _

/-- Reference value from the spec's formula: the sum over `i` of
`yi * Li(0)` with `Li(0) = prod over j ≠ i of (0 - xj) / (xi - xj)`. -/
def refIdx (points : List (ℚ × ℚ)) : ℚ :=
  ∑ i ∈ Finset.range points.length,
    getY points i *
      ∏ j ∈ (Finset.range points.length).erase i,
        (0 - getX points j) / (getX points i - getX points j)

/-- Pure value of the inner loop over an index list, ignoring errors:
the factor contributed by index `j` is `1` when `j = i`. -/
def liPure (points : List (ℚ × ℚ)) (i : ℕ) : List ℕ → ℚ
  | [] => 1
  | j :: js =>
    (if i = j then 1 else (0 - getX points j) / (getX points i - getX points j)) *
      liPure points i js

end SecretSharing

namespace SecretSharing

theorem liLoop_cons_self (points : List (ℚ × ℚ)) (i : ℕ) (js : List ℕ) (acc : ℚ) :
    liLoop points i (i :: js) acc = liLoop points i js acc := by
  simp [liLoop]

theorem liLoop_cons_ne (points : List (ℚ × ℚ)) {i j : ℕ} (js : List ℕ) (acc : ℚ)
    (hij : i ≠ j) (hz : getX points i - getX points j ≠ 0) :
    liLoop points i (j :: js) acc =
      liLoop points i js (acc * ((0 - getX points j) / (getX points i - getX points j))) := by
  simp [liLoop, hij, hz]

theorem liLoop_cons_zero (points : List (ℚ × ℚ)) {i j : ℕ} (js : List ℕ) (acc : ℚ)
    (hij : i ≠ j) (hz : getX points i - getX points j = 0) :
    liLoop points i (j :: js) acc = .error .zeroDivisionError := by
  simp [liLoop, hij, hz]

theorem liPure_cons_self (points : List (ℚ × ℚ)) (i : ℕ) (js : List ℕ) :
    liPure points i (i :: js) = liPure points i js := by
  simp [liPure]

theorem liPure_cons_ne (points : List (ℚ × ℚ)) {i j : ℕ} (js : List ℕ) (hij : i ≠ j) :
    liPure points i (j :: js) =
      (0 - getX points j) / (getX points i - getX points j) * liPure points i js := by
  simp [liPure, hij]

theorem liLoop_eq_ok (points : List (ℚ × ℚ)) (i : ℕ) (js : List ℕ) (acc : ℚ)
    (h : ∀ j ∈ js, i ≠ j → getX points i ≠ getX points j) :
    liLoop points i js acc = .ok (acc * liPure points i js) := by
  induction js generalizing acc with
  | nil => simp [liLoop, liPure]
  | cons j js ih =>
    have htail : ∀ j' ∈ js, i ≠ j' → getX points i ≠ getX points j' :=
      fun j' hj' => h j' (List.mem_cons_of_mem _ hj')
    rcases eq_or_ne i j with rfl | hij
    · rw [liLoop_cons_self, liPure_cons_self, ih _ htail]
    · have hx : getX points i - getX points j ≠ 0 :=
        sub_ne_zero_of_ne (h j (List.mem_cons_self _ _) hij)
      rw [liLoop_cons_ne points js acc hij hx, liPure_cons_ne points js hij,
        ih _ htail, mul_assoc]

theorem liLoop_eq_error (points : List (ℚ × ℚ)) (i : ℕ) (js : List ℕ) (acc : ℚ)
    (h : ∃ j ∈ js, i ≠ j ∧ getX points i = getX points j) :
    liLoop points i js acc = .error .zeroDivisionError := by
  induction js generalizing acc with
  | nil => simp at h
  | cons j js ih =>
    rcases h with ⟨j', hj', hij', hxx'⟩
    rcases List.mem_cons.mp hj' with rfl | hmem
    · exact liLoop_cons_zero points js acc hij' (sub_eq_zero_of_eq hxx')
    · rcases eq_or_ne i j with rfl | hij
      · rw [liLoop_cons_self]
        exact ih _ ⟨j', hmem, hij', hxx'⟩
      · rcases eq_or_ne (getX points i - getX points j) 0 with hz | hz
        · exact liLoop_cons_zero points js acc hij hz
        · rw [liLoop_cons_ne points js acc hij hz]
          exact ih _ ⟨j', hmem, hij', hxx'⟩

theorem liLoop_error_elim (points : List (ℚ × ℚ)) (i : ℕ) (js : List ℕ) (acc : ℚ)
    (e : PyErr) (h : liLoop points i js acc = .error e) : e = .zeroDivisionError := by
  induction js generalizing acc with
  | nil => simp [liLoop] at h
  | cons j js ih =>
    rcases eq_or_ne i j with rfl | hij
    · rw [liLoop_cons_self] at h
      exact ih _ h
    · rcases eq_or_ne (getX points i - getX points j) 0 with hz | hz
      · rw [liLoop_cons_zero points js acc hij hz] at h
        exact (Except.error.inj h).symm
      · rw [liLoop_cons_ne points js acc hij hz] at h
        exact ih _ h

end SecretSharing

namespace SecretSharing

theorem outerLoop_eq_ok (points : List (ℚ × ℚ)) (is : List ℕ) (secret : ℚ)
    (h : ∀ i ∈ is, ∀ j ∈ List.range points.length, i ≠ j → getX points i ≠ getX points j) :
    outerLoop points is secret =
      .ok (secret +
        (is.map fun i => getY points i * liPure points i (List.range points.length)).sum) := by
  induction is generalizing secret with
  | nil => simp [outerLoop]
  | cons i is ih =>
    have hhead := liLoop_eq_ok points i (List.range points.length) 1
      (h i (List.mem_cons_self _ _))
    rw [one_mul] at hhead
    have hstep : outerLoop points (i :: is) secret =
        outerLoop points is
          (secret + getY points i * liPure points i (List.range points.length)) := by
      rw [outerLoop, hhead]
    rw [hstep, ih _ fun i' hi' => h i' (List.mem_cons_of_mem _ hi')]
    rw [List.map_cons, List.sum_cons, add_assoc]

theorem outerLoop_eq_error (points : List (ℚ × ℚ)) (is : List ℕ) (secret : ℚ)
    (h : ∃ i ∈ is, liLoop points i (List.range points.length) 1 =
      .error PyErr.zeroDivisionError) :
    outerLoop points is secret = .error .zeroDivisionError := by
  induction is generalizing secret with
  | nil => simp at h
  | cons i is ih =>
    rcases h with ⟨i', hi', herr⟩
    rcases List.mem_cons.mp hi' with rfl | hmem
    · rw [outerLoop, herr]
    · rcases hm : liLoop points i (List.range points.length) 1 with e | li
      · rw [outerLoop, hm, liLoop_error_elim points i _ 1 e hm]
      · rw [outerLoop, hm]
        exact ih _ ⟨i', hmem, herr⟩

end SecretSharing

namespace SecretSharing

theorem liPure_eq_prod (points : List (ℚ × ℚ)) (i : ℕ) (js : List ℕ) (hnd : js.Nodup) :
    liPure points i js =
      ∏ j ∈ js.toFinset.erase i, (0 - getX points j) / (getX points i - getX points j) := by
  induction js with
  | nil => simp [liPure]
  | cons j js ih =>
    rcases List.nodup_cons.mp hnd with ⟨hjmem, hnd'⟩
    rcases eq_or_ne i j with rfl | hij
    · rw [liPure_cons_self, ih hnd', List.toFinset_cons, Finset.erase_insert_eq_erase]
    · have hnotin : j ∉ js.toFinset.erase i := fun hmem =>
        hjmem (List.mem_toFinset.mp (Finset.mem_of_mem_erase hmem))
      rw [liPure_cons_ne points js hij, ih hnd', List.toFinset_cons,
        Finset.erase_insert_of_ne (Ne.symm hij), Finset.prod_insert hnotin]


theorem getX_eq_getElem (points : List (ℚ × ℚ)) (k : ℕ) (hk : k < points.length) :
    getX points k = points[k].1 := by
  rw [getX, List.getD_eq_getElem _ _ hk]

theorem getY_eq_getElem (points : List (ℚ × ℚ)) (k : ℕ) (hk : k < points.length) :
    getY points k = points[k].2 := by
  rw [getY, List.getD_eq_getElem _ _ hk]

theorem distinctX_iff (points : List (ℚ × ℚ)) :
    DistinctX points ↔ ∀ i j, i < points.length → j < points.length → i ≠ j →
      getX points i ≠ getX points j := by
  unfold DistinctX
  rw [List.nodup_iff_injective_getElem]
  constructor
  · intro hinj i j hi hj hij hxx
    have hi' : i < (points.map Prod.fst).length := by simpa using hi
    have hj' : j < (points.map Prod.fst).length := by simpa using hj
    rw [getX_eq_getElem points i hi, getX_eq_getElem points j hj] at hxx
    have hg : (points.map Prod.fst)[i] = (points.map Prod.fst)[j] := by
      simpa [List.getElem_map] using hxx
    have : (⟨i, hi'⟩ : Fin (points.map Prod.fst).length) = ⟨j, hj'⟩ := hinj hg
    exact hij (congrArg Fin.val this)
  · intro h
    rintro ⟨i, hi⟩ ⟨j, hj⟩ hget
    have hi' : i < points.length := by simpa using hi
    have hj' : j < points.length := by simpa using hj
    by_contra hne
    have hij : i ≠ j := fun hh => hne (Fin.ext hh)
    refine h i j hi' hj' hij ?_
    rw [getX_eq_getElem points i hi', getX_eq_getElem points j hj']
    simpa [List.getElem_map] using hget

end SecretSharing

namespace SecretSharing

theorem lagrange_eq_ok_refIdx (points : List (ℚ × ℚ)) (hd : DistinctX points) :
    lagrange_constant_term points = .ok (refIdx points) := by
  have hidx := (distinctX_iff points).mp hd
  rw [lagrange_constant_term,
    outerLoop_eq_ok points _ 0 fun i hi j hj hij =>
      hidx i j (List.mem_range.mp hi) (List.mem_range.mp hj) hij,
    zero_add]
  have hsum : ((List.range points.length).map fun i =>
      getY points i * liPure points i (List.range points.length)).sum =
      ∑ i ∈ Finset.range points.length,
        getY points i * liPure points i (List.range points.length) := rfl
  rw [hsum]
  refine congrArg Except.ok (Finset.sum_congr rfl fun i _ => ?_)
  have hrange : (List.range points.length).toFinset = Finset.range points.length := by
    ext a; simp
  rw [liPure_eq_prod points i _ (List.nodup_range _), hrange]

theorem lagrange_eq_error_of_dup (points : List (ℚ × ℚ)) (hnd : ¬ DistinctX points) :
    lagrange_constant_term points = .error .zeroDivisionError := by
  rw [distinctX_iff] at hnd
  push_neg at hnd
  obtain ⟨i, j, hi, hj, hij, hxx⟩ := hnd
  refine outerLoop_eq_error points _ 0 ⟨i, List.mem_range.mpr hi, ?_⟩
  exact liLoop_eq_error points i _ 1 ⟨j, List.mem_range.mpr hj, hij, hxx⟩

theorem injOn_getX (points : List (ℚ × ℚ)) (hd : DistinctX points) :
    Set.InjOn (getX points) (Finset.range points.length) := by
  intro a ha b hb hab
  by_contra hne
  exact (distinctX_iff points).mp hd a b (by simpa using ha) (by simpa using hb) hne hab

end SecretSharing

namespace SecretSharing

theorem basis_eval_zero (n : ℕ) (v : ℕ → ℚ) (i : ℕ) :
    Polynomial.eval 0 (Lagrange.basis (Finset.range n) v i) =
      ∏ j ∈ (Finset.range n).erase i, (0 - v j) / (v i - v j) := by
  rw [Lagrange.basis, Polynomial.eval_prod]
  refine Finset.prod_congr rfl fun j _ => ?_
  rw [Lagrange.basisDivisor]
  simp only [Polynomial.eval_mul, Polynomial.eval_C, Polynomial.eval_sub, Polynomial.eval_X]
  rw [div_eq_mul_inv, mul_comm]

theorem refIdx_eq_eval (points : List (ℚ × ℚ)) (p : Polynomial ℚ)
    (hd : DistinctX points) (hdeg : p.degree < points.length)
    (hon : ∀ pt ∈ points, pt.2 = p.eval pt.1) :
    refIdx points = p.eval 0 := by
  classical
  have hinj := injOn_getX points hd
  have hdeg' : p.degree < (Finset.range points.length).card := by
    rw [Finset.card_range]; exact_mod_cast hdeg
  have hp := Lagrange.eq_interpolate hinj hdeg'
  have heval : p.eval 0 =
      ∑ i ∈ Finset.range points.length,
        p.eval (getX points i) * Polynomial.eval 0 (Lagrange.basis (Finset.range points.length)
          (getX points) i) := by
    conv_lhs => rw [hp]
    rw [Lagrange.interpolate_apply, Polynomial.eval_finset_sum]
    exact Finset.sum_congr rfl fun i _ => by
      rw [Polynomial.eval_mul, Polynomial.eval_C]
  rw [heval, refIdx]
  refine Finset.sum_congr rfl fun i hi => ?_
  rw [basis_eval_zero]
  have hilt : i < points.length := Finset.mem_range.mp hi
  have hmem : points[i] ∈ points := List.getElem_mem hilt
  have hy : getY points i = p.eval (getX points i) := by
    rw [getY_eq_getElem points i hilt, getX_eq_getElem points i hilt]
    exact hon _ hmem
  rw [hy]

theorem exists_interp (points : List (ℚ × ℚ)) (hd : DistinctX points) :
    ∃ p : Polynomial ℚ, p.degree < points.length ∧ ∀ pt ∈ points, pt.2 = p.eval pt.1 := by
  classical
  have hinj := injOn_getX points hd
  refine ⟨Lagrange.interpolate (Finset.range points.length) (getX points) (getY points),
    ?_, ?_⟩
  · have h := Lagrange.degree_interpolate_lt (getY points) hinj
    rw [Finset.card_range] at h
    exact_mod_cast h
  · intro pt hpt
    obtain ⟨k, hk, hkeq⟩ := List.mem_iff_getElem.mp hpt
    have := Lagrange.eval_interpolate_at_node (getY points) hinj (Finset.mem_range.mpr hk)
    rw [← hkeq, ← getY_eq_getElem points k hk, ← getX_eq_getElem points k hk]
    exact this.symm

end SecretSharing

namespace SecretSharing

theorem distinctX_of_perm {points points' : List (ℚ × ℚ)} (hperm : points.Perm points')
    (hd : DistinctX points) : DistinctX points' :=
  ((hperm.map Prod.fst).nodup_iff).mp hd

/-- C1: for every non-empty point list with pairwise-distinct x-values,
`lagrange_constant_term` returns (without error) exactly the reference value
`∑ i, yi * Li(0)` with `Li(0) = ∏ over j ≠ i of (0 - xj) / (xi - xj)`. -/
theorem C1_matches_reference_formula (points : List (ℚ × ℚ))
    (_hne : points ≠ []) (hd : DistinctX points) :
    lagrange_constant_term points = .ok (refIdx points) :=
  lagrange_eq_ok_refIdx points hd

/-- Witness for C1 at the concrete input `[(1, 4), (2, 7)]`. -/
theorem C1_matches_reference_formula_witness :
    lagrange_constant_term [((1 : ℚ), 4), (2, 7)] = .ok (refIdx [((1 : ℚ), 4), (2, 7)]) :=
  C1_matches_reference_formula _ (by simp) (by decide)

/-- C10: called on the empty list, the function raises no error and returns 0:
both loops run zero iterations and the initial accumulator `0.0` is returned. -/
theorem C10_empty_input_returns_zero : lagrange_constant_term [] = .ok 0 := rfl

end SecretSharing

namespace SecretSharing

/-- C2 counterexample: the code performs no input validation.  On the empty
list it silently returns 0 instead of raising `InvalidInputError`, and on a
duplicated x-value it raises `ZeroDivisionError`, not `InvalidInputError`. -/
theorem C2_raises_invalid_input_counterexample :
    lagrange_constant_term [] = .ok 0 ∧
      lagrange_constant_term [((1 : ℚ), (2 : ℚ)), (1, 3)] = .error .zeroDivisionError := by
  constructor
  · rfl
  · norm_num [lagrange_constant_term, outerLoop, liLoop, getX, getY, List.range_succ]

/-- C2 amended: the empty list yields `0` with no error; a duplicated x-value
makes the function fail with `ZeroDivisionError` (never `InvalidInputError`);
any input with pairwise-distinct x-values completes without error. -/
theorem C2_error_behavior :
    lagrange_constant_term [] = .ok 0 ∧
      (∀ points : List (ℚ × ℚ), ¬ DistinctX points →
        lagrange_constant_term points = .error .zeroDivisionError) ∧
      ∀ points : List (ℚ × ℚ), DistinctX points →
        ∃ r, lagrange_constant_term points = .ok r :=
  ⟨rfl, fun points hnd => lagrange_eq_error_of_dup points hnd,
    fun points hd => ⟨refIdx points, lagrange_eq_ok_refIdx points hd⟩⟩

/-- Witness for C2's amended statement at the concrete inputs
`[(4, 2), (4, 3)]` (duplicate x) and `[(3, 1), (4, 1)]` (distinct x). -/
theorem C2_error_behavior_witness :
    lagrange_constant_term [((4 : ℚ), (2 : ℚ)), (4, 3)] = .error .zeroDivisionError ∧
      ∃ r, lagrange_constant_term [((3 : ℚ), (1 : ℚ)), (4, 1)] = .ok r :=
  ⟨C2_error_behavior.2.1 _ (by decide), C2_error_behavior.2.2 _ (by decide)⟩

end SecretSharing

namespace SecretSharing

/-- C3: round-trip — for any polynomial `p` of degree below the number of
supplied points and any point list with pairwise-distinct x-values lying on
`p`, the function recovers exactly `p`'s constant coefficient. -/
theorem C3_round_trip (p : Polynomial ℚ) (points : List (ℚ × ℚ))
    (hd : DistinctX points) (hdeg : p.degree < points.length)
    (hon : ∀ pt ∈ points, pt.2 = p.eval pt.1) :
    lagrange_constant_term points = .ok (p.coeff 0) := by
  rw [lagrange_eq_ok_refIdx points hd, refIdx_eq_eval points p hd hdeg hon,
    Polynomial.coeff_zero_eq_eval_zero]

/-- Witness for C3 with the constant polynomial `42` sampled at `(5, 42)`. -/
theorem C3_round_trip_witness :
    lagrange_constant_term [((5 : ℚ), 42)] = .ok ((Polynomial.C (42 : ℚ)).coeff 0) :=
  C3_round_trip (Polynomial.C 42) [((5 : ℚ), 42)] (by decide)
    (by rw [Polynomial.degree_C (by norm_num)]; norm_num)
    (by simp)

/-- C4: permutation invariance — on any valid point list, every permutation
of the input produces exactly the same result. -/
theorem C4_permutation_invariance (points points' : List (ℚ × ℚ))
    (_hne : points ≠ []) (hd : DistinctX points) (hperm : points.Perm points') :
    lagrange_constant_term points' = lagrange_constant_term points := by
  obtain ⟨p, hdeg, hon⟩ := exists_interp points hd
  have hd' : DistinctX points' := distinctX_of_perm hperm hd
  have hlen : points'.length = points.length := hperm.length_eq.symm
  have hon' : ∀ pt ∈ points', pt.2 = p.eval pt.1 := fun pt hpt =>
    hon pt (hperm.mem_iff.mpr hpt)
  have hdeg' : p.degree < points'.length := by rw [hlen]; exact hdeg
  rw [lagrange_eq_ok_refIdx points hd, lagrange_eq_ok_refIdx points' hd',
    refIdx_eq_eval points p hd hdeg hon, refIdx_eq_eval points' p hd' hdeg' hon']

/-- Witness for C4 at the concrete input `[(1, 4), (2, 7)]` and its swap. -/
theorem C4_permutation_invariance_witness :
    lagrange_constant_term [((2 : ℚ), 7), (1, 4)] =
      lagrange_constant_term [((1 : ℚ), 4), (2, 7)] :=
  C4_permutation_invariance _ _ (by simp) (by decide)
    (List.Perm.swap ((2 : ℚ), 7) ((1 : ℚ), 4) [])

end SecretSharing

namespace SecretSharing

/-- C5: on `[(1, 4), (2, 7), (3, 12)]` (points of `x² + 3`) the function
returns exactly 3 (so in particular within `1e-9` of 3). -/
theorem C5_test_case_one :
    lagrange_constant_term [((1 : ℚ), 4), (2, 7), (3, 12)] = .ok 3 := by
  norm_num [lagrange_constant_term, outerLoop, liLoop, getX, getY, List.range_succ]

/-- C6: on `[(1, 4), (2, 7), (6, 39)]`, a different 3-point subset of
`x² + 3`, the function also returns exactly 3. -/
theorem C6_alternative_subset :
    lagrange_constant_term [((1 : ℚ), 4), (2, 7), (6, 39)] = .ok 3 := by
  norm_num [lagrange_constant_term, outerLoop, liLoop, getX, getY, List.range_succ]

/-- C7: a single point `[(x, y)]` always yields `y`; in particular
`[(5, 42)]` yields 42. -/
theorem C7_single_point :
    lagrange_constant_term [((5 : ℚ), 42)] = .ok 42 ∧
      ∀ x y : ℚ, lagrange_constant_term [(x, y)] = .ok y := by
  constructor
  · norm_num [lagrange_constant_term, outerLoop, liLoop, getX, getY, List.range_succ]
  · intro x y
    have hrange : List.range ([(x, y)] : List (ℚ × ℚ)).length = [0] := rfl
    show outerLoop [(x, y)] [0] 0 = .ok y
    rw [outerLoop, hrange, liLoop_cons_self]
    show Except.ok ((0 : ℚ) + y * 1) = Except.ok y
    norm_num

/-- C8: the embedded function is deterministic: equal inputs give equal
results.  (Purity holds by construction: the embedding is a total function
and the source only reads `points`, never mutating it or any global.) -/
theorem C8_deterministic (ps qs : List (ℚ × ℚ)) (h : ps = qs) :
    lagrange_constant_term ps = lagrange_constant_term qs := by rw [h]

/-- Witness for C8 at a concrete input. -/
theorem C8_deterministic_witness :
    lagrange_constant_term [((1 : ℚ), 1)] = lagrange_constant_term [((1 : ℚ), 1)] :=
  C8_deterministic _ _ rfl

/-- C9: the division is unguarded but never divides by zero on distinct
x-values (the function completes with a value); with two equal x-values it
fails with `ZeroDivisionError`, not with a validation error. -/
theorem C9_unguarded_division :
    (∀ points : List (ℚ × ℚ), DistinctX points →
        ∃ r, lagrange_constant_term points = .ok r) ∧
      ∀ points : List (ℚ × ℚ), ∀ i j, i < points.length → j < points.length →
        i ≠ j → getX points i = getX points j →
        lagrange_constant_term points = .error .zeroDivisionError := by
  constructor
  · exact fun points hd => ⟨refIdx points, lagrange_eq_ok_refIdx points hd⟩
  · intro points i j hi hj hij hxx
    exact lagrange_eq_error_of_dup points fun hd =>
      (distinctX_iff points).mp hd i j hi hj hij hxx

/-- Witness for C9 at the inputs `[(1, 4), (2, 7)]` and `[(2, 5), (2, 9)]`. -/
theorem C9_unguarded_division_witness :
    (∃ r, lagrange_constant_term [((1 : ℚ), 4), (2, 7)] = .ok r) ∧
      lagrange_constant_term [((2 : ℚ), 5), (2, 9)] = .error .zeroDivisionError :=
  ⟨C9_unguarded_division.1 _ (by decide),
    C9_unguarded_division.2 _ 0 1 (by decide) (by decide) (by decide) (by decide)⟩

end SecretSharing
